import Mathlib

/-!
Verification development for the zvc decoder (src/module/decoder.py) and its
helper utilities (src/module/common.py).

The embedding is split into two layers, both translated directly from the
Python source:

* a shape layer: every tensor shape is a `Shape3` (batch, channels, time) and
  every torch operation that can raise a shape error is a function into
  `Option Shape3`, mirroring torch's validity checks (channel match for
  convolutions, broadcasting rules for elementwise ops, minimal output
  length).  This layer is executable over `ℕ`, so concrete instances are
  settled by `decide`.

* a value layer: a tensor is a total function `ℕ → ℕ → ℕ → ℝ`
  (batch, channel, time), out-of-range reads used by zero padding are
  explicit via `padGet`, and every module forward pass is a real-valued
  function translated statement by statement from the source.  Real-number
  arithmetic stands in for float arithmetic, so float-only phenomena
  (NaN, rounding) are outside this layer.

Weight normalization and its removal (`remove_weight_norm`) are modelled by a
small module-tree datatype together with `Except`-valued removal functions
that mirror `torch.nn.utils.remove_weight_norm`, which raises `ValueError`
when the module it is applied to carries no weight-norm hook for its
`weight` parameter.
-/

/-- Shape of a 3-dimensional tensor: (batch, channels, time). -/
structure Shape3 where
  n : ℕ
  c : ℕ
  t : ℕ
deriving DecidableEq, Repr

/-- Torch broadcasting rule for one dimension: sizes must agree or one of
them must be 1; otherwise the elementwise op raises. -/
def broadcastDim (a b : ℕ) : Option ℕ :=
  if a = b then some a
  else if a = 1 then some b
  else if b = 1 then some a
  else none

/-- Shape of an elementwise sum `x + y` (torch broadcasting). -/
def addShape (s1 s2 : Shape3) : Option Shape3 := do
  let n ← broadcastDim s1.n s2.n
  let c ← broadcastDim s1.c s2.c
  let t ← broadcastDim s1.t s2.t
  some ⟨n, c, t⟩

/-- Shape of an elementwise product `x * y` (same broadcasting rule). -/
def mulShape (s1 s2 : Shape3) : Option Shape3 := do
  let n ← broadcastDim s1.n s2.n
  let c ← broadcastDim s1.c s2.c
  let t ← broadcastDim s1.t s2.t
  some ⟨n, c, t⟩

/-- Shape semantics of `nn.Conv1d(inC, outC, k, stride, pad, dilation)` applied
to `s`: the input channel count must match and the output length
`(t + 2*pad - dilation*(k-1) - 1) / stride + 1` must be at least 1
(torch raises "Output size is too small" otherwise).  All convolutions in
this code use stride 1.  The `groups` argument only constrains the weight
shape, never the input/output shape, and every `groups` value used in the
source divides its channel counts, so it is omitted here. -/
def conv1dShape (inC outC k pad dil stride : ℕ) (s : Shape3) : Option Shape3 :=
  if s.c = inC ∧ dil * (k - 1) + 1 ≤ s.t + 2 * pad then
    some ⟨s.n, outC, (s.t + 2 * pad - (dil * (k - 1) + 1)) / stride + 1⟩
  else none

/-- Shape semantics of `nn.ConvTranspose1d(inC, outC, k, stride, pad)`:
output length `(t - 1) * stride + k - 2 * pad`, which must be positive. -/
def convTranspose1dShape (inC outC k stride pad : ℕ) (s : Shape3) : Option Shape3 :=
  if s.c = inC ∧ 1 ≤ s.t ∧ 2 * pad + 1 ≤ (s.t - 1) * stride + k then
    some ⟨s.n, outC, (s.t - 1) * stride + k - 2 * pad⟩
  else none

/-- Shape semantics of `x.chunk(2, dim=1)`: the channel axis is split into a
first half of `⌈c/2⌉` channels and a second half with the rest. -/
def chunk2Shape (s : Shape3) : Shape3 × Shape3 :=
  (⟨s.n, (s.c + 1) / 2, s.t⟩, ⟨s.n, s.c - (s.c + 1) / 2, s.t⟩)

/-- Shape pipeline of `F0Encoder.forward`: two 1x1 convolutions
(1 → D and D → D) with an elementwise `sin` in between. -/
def f0EncShape (D : ℕ) (s : Shape3) : Option Shape3 := do
  let a ← conv1dShape 1 D 1 0 1 1 s
  conv1dShape D D 1 0 1 1 a

/-- Shape pipeline of `AmplitudeEncoder.forward`: one 1x1 convolution 1 → D. -/
def ampEncShape (D : ℕ) (s : Shape3) : Option Shape3 :=
  conv1dShape 1 D 1 0 1 1 s

/-- Shape pipeline of `GaussianEncoder.forward`: depthwise conv (kernel 7,
padding 3), 1x1 conv, GELU, 1x1 conv to `2*D` channels, then
`chunk(2, dim=1)` into (mean, log-scale). -/
def gaussianEncShape (hubert D : ℕ) (s : Shape3) : Option (Shape3 × Shape3) := do
  let a ← conv1dShape hubert hubert 7 3 1 1 s
  let b ← conv1dShape hubert hubert 1 0 1 1 a
  let c ← conv1dShape hubert (2 * D) 1 0 1 1 b
  some (chunk2Shape c)

/-- Shape pipeline of `ResBlock.forward` for kernel size `k` and dilation
list `ds`: for each dilation, two dilated convolutions with padding
`(k-1)*d/2` and a residual add. -/
def resblockShape (C k : ℕ) (ds : List ℕ) (s : Shape3) : Option Shape3 :=
  ds.foldlM (fun cur d => do
    let a ← conv1dShape C C k ((k - 1) * d / 2) d 1 cur
    let b ← conv1dShape C C k ((k - 1) * d / 2) d 1 a
    addShape b cur) s

/-- Shape pipeline of `MRF.forward`: the parallel `ResBlock`s (one per
(kernel, dilation-list) pair) are summed.  `out` starts as the Python
scalar `0`, so the first `out += block(x)` takes the first block's shape
and every later one is a broadcast add.  An empty block list would leave
`out` a Python scalar; it cannot arise from the decoder's configuration and
is mapped to `none`. -/
def mrfShape (C : ℕ) (ks : List ℕ) (dss : List (List ℕ)) (s : Shape3) : Option Shape3 :=
  match ks.zip dss with
  | [] => none
  | kd :: rest => do
      let first ← resblockShape C kd.1 kd.2 s
      rest.foldlM (fun acc kd2 => do
        let b ← resblockShape C kd2.1 kd2.2 s
        addShape acc b) first

/-- Shape pipeline of the decoder's upsampling cascade: for stage `i`,
leaky-ReLU (shape preserving), transposed convolution from
`upInit // 2^i` to `upInit // 2^(i+1)` channels with padding `(k-s)//2`,
then the MRF (whose output is divided by the number of kernels — shape
preserving). -/
def stagesShape (upInit : ℕ) (ks : List ℕ) (dss : List (List ℕ)) :
    List (ℕ × ℕ) → ℕ → Shape3 → Option Shape3
  | [], _, s => some s
  | (st, k) :: rest, i, s => do
      let s1 ← convTranspose1dShape (upInit / 2 ^ i) (upInit / 2 ^ (i + 1))
        k st ((k - st) / 2) s
      let s2 ← mrfShape (upInit / 2 ^ (i + 1)) ks dss s1
      stagesShape upInit ks dss rest (i + 1) s2

/-- Static configuration of the decoder, as taken by `Decoder.__init__`:
`pairs` zips `deconv_strides` with `deconv_kernel_sizes`. -/
structure ShapeCfg where
  hubert : ℕ
  inputChannels : ℕ
  upInit : ℕ
  pairs : List (ℕ × ℕ)
  resKernels : List ℕ
  resDils : List (List ℕ)

/-- Shape pipeline of `Decoder.forward`.  `noiseS` is the shape of the
caller-supplied noise; when it is absent the noise is
`torch.randn_like(sigma)`, whose shape is that of the log-scale.  The final
result is the waveform shape `(batch, time)` after `squeeze(1)`. -/
def forwardShape (cfg : ShapeCfg) (xs f0s amps : Shape3) (noiseS : Option Shape3) :
    Option (ℕ × ℕ) := do
  let f0e ← f0EncShape cfg.inputChannels f0s
  let ampe ← ampEncShape cfg.inputChannels amps
  let ms ← gaussianEncShape cfg.hubert cfg.inputChannels xs
  let nS := noiseS.getD ms.2
  let prodS ← mulShape ms.2 nS
  let zS ← addShape ms.1 prodS
  let preS ← conv1dShape cfg.inputChannels cfg.upInit 7 3 1 1 zS
  let s1 ← addShape preS f0e
  let s2 ← addShape s1 ampe
  let s3 ← stagesShape cfg.upInit cfg.resKernels cfg.resDils cfg.pairs 0 s2
  let s4 ← conv1dShape (cfg.upInit / 2 ^ cfg.pairs.length) 1 7 3 1 1 s3
  some (s4.n, s4.t)

/-- Shape pipeline of `Decoder.decode`: the noise is
`torch.randn(x.shape[0], 256, x.shape[2])` — 256 channels hard-coded —
scaled by the gain (shape preserving), then `forward` is called with it. -/
def decodeShape (cfg : ShapeCfg) (xs f0s amps : Shape3) : Option (ℕ × ℕ) :=
  forwardShape cfg xs f0s amps (some ⟨xs.n, 256, xs.t⟩)

/-- The decoder configuration with all constructor defaults except the
`input_channels` parameter `ic`: strides [8,8,2,2], kernels [16,16,4,4],
ResBlock kernels [3,7,11] with dilations [1,3,5] each. -/
def defaultShapeCfg (ic : ℕ) : ShapeCfg :=
  ⟨768, ic, 256, [(8, 16), (8, 16), (2, 4), (2, 4)], [3, 7, 11],
    [[1, 3, 5], [1, 3, 5], [1, 3, 5]]⟩

lemma broadcastDim_self (a : ℕ) : broadcastDim a a = some a := by
  simp [broadcastDim]

lemma addShape_self (s : Shape3) : addShape s s = some s := by
  simp [addShape, broadcastDim_self]

lemma mulShape_self (s : Shape3) : mulShape s s = some s := by
  simp [mulShape, broadcastDim_self]

lemma conv1dShape_same (inC outC k pad dil n c t : ℕ)
    (h1 : c = inC) (h2 : 2 * pad = dil * (k - 1)) (h3 : 1 ≤ t) :
    conv1dShape inC outC k pad dil 1 ⟨n, c, t⟩ = some ⟨n, outC, t⟩ := by
  have hout : (t + 2 * pad - (dil * (k - 1) + 1)) / 1 + 1 = t := by
    rw [Nat.div_one]
    omega
  unfold conv1dShape
  dsimp only
  rw [if_pos ⟨h1, by omega⟩, hout]

lemma convTranspose1dShape_same (inC outC k st n c t : ℕ)
    (h1 : c = inC) (hst : 1 ≤ st) (hsk : st ≤ k) (hev : 2 ∣ (k - st)) (ht : 1 ≤ t) :
    convTranspose1dShape inC outC k st ((k - st) / 2) ⟨n, c, t⟩
      = some ⟨n, outC, st * t⟩ := by
  obtain ⟨t', rfl⟩ : ∃ t', t = t' + 1 := ⟨t - 1, by omega⟩
  have h2 : 2 * ((k - st) / 2) = k - st := by omega
  have hm : (t' + 1 - 1) * st = t' * st := by simp
  have hout : (t' + 1 - 1) * st + k - 2 * ((k - st) / 2) = st * (t' + 1) := by
    rw [hm, h2]
    have h3 : st * (t' + 1) = t' * st + st := by ring
    omega
  unfold convTranspose1dShape
  dsimp only
  rw [if_pos ⟨h1, by omega, by rw [hm]; omega⟩, hout]

lemma resblockShape_same (C k : ℕ) (hk : Odd k) :
    ∀ (ds : List ℕ) (n t : ℕ), 1 ≤ t →
      resblockShape C k ds ⟨n, C, t⟩ = some ⟨n, C, t⟩ := by
  intro ds
  induction ds with
  | nil => intro n t ht; simp [resblockShape]
  | cons d tl ih =>
      intro n t ht
      have hdvd : 2 ∣ (k - 1) * d := by
        obtain ⟨m, rfl⟩ := hk
        have hm : 2 * m + 1 - 1 = 2 * m := by omega
        rw [hm]
        exact ⟨m * d, by ring⟩
      have hpad : 2 * ((k - 1) * d / 2) = d * (k - 1) := by
        rw [Nat.mul_comm d (k - 1)]
        omega
      have hc := conv1dShape_same C C k ((k - 1) * d / 2) d n C t rfl hpad ht
      unfold resblockShape
      rw [List.foldlM_cons]
      simp only [Option.bind_eq_bind]
      rw [hc]
      simp only [Option.bind_eq_bind, Option.some_bind]
      rw [hc]
      simp only [Option.bind_eq_bind, Option.some_bind]
      rw [addShape_self]
      simp only [Option.bind_eq_bind, Option.some_bind]
      exact ih n t ht

lemma mrfShape_default (C n t : ℕ) (ht : 1 ≤ t) :
    mrfShape C [3, 7, 11] [[1, 3, 5], [1, 3, 5], [1, 3, 5]] ⟨n, C, t⟩
      = some ⟨n, C, t⟩ := by
  have h3 := resblockShape_same C 3 (by decide) [1, 3, 5] n t ht
  have h7 := resblockShape_same C 7 (by decide) [1, 3, 5] n t ht
  have h11 := resblockShape_same C 11 (by decide) [1, 3, 5] n t ht
  unfold mrfShape
  simp only [List.zip_cons_cons, List.zip_nil_right, List.foldlM_cons, List.foldlM_nil,
    Option.bind_eq_bind]
  rw [h3]
  simp only [Option.bind_eq_bind, Option.some_bind]
  rw [h7]
  simp only [Option.bind_eq_bind, Option.some_bind]
  rw [addShape_self]
  simp only [Option.bind_eq_bind, Option.some_bind]
  rw [h11]
  simp only [Option.bind_eq_bind, Option.some_bind]
  rw [addShape_self]
  rfl

lemma stagesShape_default (n t : ℕ) (ht : 1 ≤ t) :
    stagesShape 256 [3, 7, 11] [[1, 3, 5], [1, 3, 5], [1, 3, 5]]
      [(8, 16), (8, 16), (2, 4), (2, 4)] 0 ⟨n, 256, t⟩ = some ⟨n, 16, 256 * t⟩ := by
  have e0 : (256 : ℕ) / 2 ^ 0 = 256 := by norm_num
  have e1 : (256 : ℕ) / 2 ^ (0 + 1) = 128 := by norm_num
  have e1' : (256 : ℕ) / 2 ^ 1 = 128 := by norm_num
  have e2 : (256 : ℕ) / 2 ^ (1 + 1) = 64 := by norm_num
  have e2' : (256 : ℕ) / 2 ^ 2 = 64 := by norm_num
  have e3 : (256 : ℕ) / 2 ^ (2 + 1) = 32 := by norm_num
  have e3' : (256 : ℕ) / 2 ^ 3 = 32 := by norm_num
  have e4 : (256 : ℕ) / 2 ^ (3 + 1) = 16 := by norm_num
  unfold stagesShape
  rw [e0, e1,
    convTranspose1dShape_same 256 128 16 8 n 256 t rfl (by norm_num) (by norm_num)
      (by norm_num) ht]
  simp only [Option.bind_eq_bind, Option.some_bind]
  rw [mrfShape_default 128 n (8 * t) (by omega)]
  simp only [Option.bind_eq_bind, Option.some_bind]
  unfold stagesShape
  rw [e1', e2,
    convTranspose1dShape_same 128 64 16 8 n 128 (8 * t) rfl (by norm_num) (by norm_num)
      (by norm_num) (by omega)]
  simp only [Option.bind_eq_bind, Option.some_bind]
  rw [mrfShape_default 64 n (8 * (8 * t)) (by omega)]
  simp only [Option.bind_eq_bind, Option.some_bind]
  unfold stagesShape
  rw [e2', e3,
    convTranspose1dShape_same 64 32 4 2 n 64 (8 * (8 * t)) rfl (by norm_num) (by norm_num)
      (by norm_num) (by omega)]
  simp only [Option.bind_eq_bind, Option.some_bind]
  rw [mrfShape_default 32 n (2 * (8 * (8 * t))) (by omega)]
  simp only [Option.bind_eq_bind, Option.some_bind]
  unfold stagesShape
  rw [e3', e4,
    convTranspose1dShape_same 32 16 4 2 n 32 (2 * (8 * (8 * t))) rfl (by norm_num)
      (by norm_num) (by norm_num) (by omega)]
  simp only [Option.bind_eq_bind, Option.some_bind]
  rw [mrfShape_default 16 n (2 * (2 * (8 * (8 * t)))) (by omega)]
  simp only [Option.bind_eq_bind, Option.some_bind]
  unfold stagesShape
  congr 2
  ring

lemma conv1x1Shape_same (a b n t : ℕ) (ht : 1 ≤ t) :
    conv1dShape a b 1 0 1 1 ⟨n, a, t⟩ = some ⟨n, b, t⟩ :=
  conv1dShape_same a b 1 0 1 n a t rfl (by norm_num) ht

lemma f0EncShape_ok (ic n t : ℕ) (ht : 1 ≤ t) :
    f0EncShape ic ⟨n, 1, t⟩ = some ⟨n, ic, t⟩ := by
  unfold f0EncShape
  rw [conv1x1Shape_same 1 ic n t ht]
  simp only [Option.bind_eq_bind, Option.some_bind]
  exact conv1x1Shape_same ic ic n t ht

lemma gaussianEncShape_ok (ic n t : ℕ) (ht : 1 ≤ t) :
    gaussianEncShape 768 ic ⟨n, 768, t⟩ = some (⟨n, ic, t⟩, ⟨n, ic, t⟩) := by
  have hchunk : chunk2Shape ⟨n, 2 * ic, t⟩ = (⟨n, ic, t⟩, ⟨n, ic, t⟩) := by
    unfold chunk2Shape
    dsimp only
    have h1 : (2 * ic + 1) / 2 = ic := by omega
    rw [h1]
    have h2 : 2 * ic - ic = ic := by omega
    rw [h2]
  unfold gaussianEncShape
  rw [conv1dShape_same 768 768 7 3 1 n 768 t rfl (by norm_num) ht]
  simp only [Option.bind_eq_bind, Option.some_bind]
  rw [conv1x1Shape_same 768 768 n t ht]
  simp only [Option.bind_eq_bind, Option.some_bind]
  rw [conv1x1Shape_same 768 (2 * ic) n t ht]
  simp only [Option.bind_eq_bind, Option.some_bind]
  rw [hchunk]

/-- Success of the full `forwardShape` pipeline for the default
configuration (`input_channels = 256`), for any noise shape that resolves
to the log-scale shape `(N, 256, T)` — i.e. both the internally drawn
`randn_like(sigma)` noise (`noiseS = none`) and a caller-supplied
`(N, 256, T)` noise such as the one `decode` draws. -/
lemma forwardShape_noise256 (N T : ℕ) (hT : 1 ≤ T) (noiseS : Option Shape3)
    (hn : noiseS.getD ⟨N, 256, T⟩ = ⟨N, 256, T⟩) :
    forwardShape (defaultShapeCfg 256) ⟨N, 768, T⟩ ⟨N, 1, T⟩ ⟨N, 1, T⟩ noiseS
      = some (N, 256 * T) := by
  unfold forwardShape defaultShapeCfg
  dsimp only
  rw [f0EncShape_ok 256 N T hT]
  simp only [Option.bind_eq_bind, Option.some_bind]
  rw [show ampEncShape 256 ⟨N, 1, T⟩ = some ⟨N, 256, T⟩ from
    conv1x1Shape_same 1 256 N T hT]
  simp only [Option.bind_eq_bind, Option.some_bind]
  rw [gaussianEncShape_ok 256 N T hT]
  simp only [Option.bind_eq_bind, Option.some_bind]
  rw [hn, mulShape_self]
  simp only [Option.bind_eq_bind, Option.some_bind]
  rw [addShape_self]
  simp only [Option.bind_eq_bind, Option.some_bind]
  rw [conv1dShape_same 256 256 7 3 1 N 256 T rfl (by norm_num) hT]
  simp only [Option.bind_eq_bind, Option.some_bind]
  rw [addShape_self]
  simp only [Option.bind_eq_bind, Option.some_bind]
  rw [addShape_self]
  simp only [Option.bind_eq_bind, Option.some_bind]
  rw [stagesShape_default N T hT]
  simp only [Option.bind_eq_bind, Option.some_bind]
  rw [show (256 : ℕ) / 2 ^ ([((8 : ℕ), (16 : ℕ)), (8, 16), (2, 4), (2, 4)]).length = 16
      from by norm_num,
    conv1dShape_same 16 1 7 3 1 N 16 (256 * T) rfl (by norm_num) (by omega)]
  simp only [Option.bind_eq_bind, Option.some_bind]

/-- Success of `forwardShape` when `input_channels = 1` and everything else
is default: the pitch/amplitude encodings then have a single channel and
are broadcast against the 256-channel pre-convolution output. -/
lemma forwardShape_default1 (N T : ℕ) (hT : 1 ≤ T) :
    forwardShape (defaultShapeCfg 1) ⟨N, 768, T⟩ ⟨N, 1, T⟩ ⟨N, 1, T⟩ none
      = some (N, 256 * T) := by
  have hbro : addShape ⟨N, 256, T⟩ ⟨N, 1, T⟩ = some ⟨N, 256, T⟩ := by
    simp [addShape, broadcastDim]
  unfold forwardShape defaultShapeCfg
  dsimp only
  rw [f0EncShape_ok 1 N T hT]
  simp only [Option.bind_eq_bind, Option.some_bind]
  rw [show ampEncShape 1 ⟨N, 1, T⟩ = some ⟨N, 1, T⟩ from
    conv1x1Shape_same 1 1 N T hT]
  simp only [Option.bind_eq_bind, Option.some_bind]
  rw [gaussianEncShape_ok 1 N T hT]
  simp only [Option.bind_eq_bind, Option.some_bind, Option.getD_none]
  rw [mulShape_self]
  simp only [Option.bind_eq_bind, Option.some_bind]
  rw [addShape_self]
  simp only [Option.bind_eq_bind, Option.some_bind]
  rw [conv1dShape_same 1 256 7 3 1 N 1 T rfl (by norm_num) hT]
  simp only [Option.bind_eq_bind, Option.some_bind]
  rw [hbro]
  simp only [Option.bind_eq_bind, Option.some_bind]
  rw [hbro]
  simp only [Option.bind_eq_bind, Option.some_bind]
  rw [stagesShape_default N T hT]
  simp only [Option.bind_eq_bind, Option.some_bind]
  rw [show (256 : ℕ) / 2 ^ ([((8 : ℕ), (16 : ℕ)), (8, 16), (2, 4), (2, 4)]).length = 16
      from by norm_num,
    conv1dShape_same 16 1 7 3 1 N 16 (256 * T) rfl (by norm_num) (by omega)]
  simp only [Option.bind_eq_bind, Option.some_bind]

/-- Failure of `forwardShape` (internally drawn noise) for a default-config
decoder whose `input_channels` is neither 256 nor 1: the pre-convolution
output has 256 channels while the pitch encoding has `input_channels`
channels, so their sum cannot broadcast. -/
lemma forwardShape_default_mismatch (ic N T : ℕ) (hT : 1 ≤ T)
    (h256 : ic ≠ 256) (h1 : ic ≠ 1) :
    forwardShape (defaultShapeCfg ic) ⟨N, 768, T⟩ ⟨N, 1, T⟩ ⟨N, 1, T⟩ none = none := by
  have hfail : addShape ⟨N, 256, T⟩ ⟨N, ic, T⟩ = none := by
    simp only [addShape, broadcastDim, broadcastDim_self]
    have e1 : ((256 : ℕ) = ic) = False := by
      simp only [eq_iff_iff, iff_false]
      omega
    have e2 : ((256 : ℕ) = 1) = False := by norm_num
    have e3 : (ic = 1) = False := by simp [h1]
    simp [e1, e2, e3]
  unfold forwardShape defaultShapeCfg
  dsimp only
  rw [f0EncShape_ok ic N T hT]
  simp only [Option.bind_eq_bind, Option.some_bind]
  rw [show ampEncShape ic ⟨N, 1, T⟩ = some ⟨N, ic, T⟩ from
    conv1x1Shape_same 1 ic N T hT]
  simp only [Option.bind_eq_bind, Option.some_bind]
  rw [gaussianEncShape_ok ic N T hT]
  simp only [Option.bind_eq_bind, Option.some_bind, Option.getD_none]
  rw [mulShape_self]
  simp only [Option.bind_eq_bind, Option.some_bind]
  rw [addShape_self]
  simp only [Option.bind_eq_bind, Option.some_bind]
  rw [conv1dShape_same ic 256 7 3 1 N ic T rfl (by norm_num) hT]
  simp only [Option.bind_eq_bind, Option.some_bind]
  rw [hfail]
  simp only [Option.bind_eq_bind, Option.none_bind]

/-- Failure of `decodeShape` for every `input_channels ≠ 256`: the
hard-coded 256-channel noise either fails to broadcast against the
`input_channels`-channel log-scale, or (when `input_channels = 1`, where
broadcasting succeeds) produces a 256-channel latent that the
`input_channels`-channel pre-convolution rejects. -/
lemma decodeShape_default_mismatch (ic N T : ℕ) (hT : 1 ≤ T) (h256 : ic ≠ 256) :
    decodeShape (defaultShapeCfg ic) ⟨N, 768, T⟩ ⟨N, 1, T⟩ ⟨N, 1, T⟩ = none := by
  unfold decodeShape forwardShape defaultShapeCfg
  dsimp only
  rw [f0EncShape_ok ic N T hT]
  simp only [Option.bind_eq_bind, Option.some_bind]
  rw [show ampEncShape ic ⟨N, 1, T⟩ = some ⟨N, ic, T⟩ from
    conv1x1Shape_same 1 ic N T hT]
  simp only [Option.bind_eq_bind, Option.some_bind]
  rw [gaussianEncShape_ok ic N T hT]
  simp only [Option.bind_eq_bind, Option.some_bind, Option.getD_some]
  by_cases h1 : ic = 1
  · subst h1
    rw [show mulShape ⟨N, 1, T⟩ ⟨N, 256, T⟩ = some ⟨N, 256, T⟩ from by
      simp [mulShape, broadcastDim]]
    simp only [Option.bind_eq_bind, Option.some_bind]
    rw [show addShape ⟨N, 1, T⟩ ⟨N, 256, T⟩ = some ⟨N, 256, T⟩ from by
      simp [addShape, broadcastDim]]
    simp only [Option.bind_eq_bind, Option.some_bind]
    rw [show conv1dShape 1 256 7 3 1 1 ⟨N, 256, T⟩ = none from by
      simp [conv1dShape]]
    simp only [Option.bind_eq_bind, Option.none_bind]
  · rw [show mulShape ⟨N, ic, T⟩ ⟨N, 256, T⟩ = none from by
      have e1 : (ic = 256) = False := by simp [h256]
      have e2 : (ic = 1) = False := by simp [h1]
      have e3 : ((256 : ℕ) = 1) = False := by norm_num
      simp [mulShape, broadcastDim, e1, e2, e3]]
    simp only [Option.bind_eq_bind, Option.none_bind]

noncomputable section

/-- A value-level tensor: total real-valued entries indexed by
(batch, channel, time).  Out-of-range positions are irrelevant junk; which
positions are meaningful is governed by the shape layer above. -/
abbrev T3 : Type := ℕ → ℕ → ℕ → ℝ

/-- Zero-padded read used by convolutions: positions outside `[0, T)` on the
time axis read as 0. -/
def padGet (x : T3) (T b c : ℕ) (i : ℤ) : ℝ :=
  if 0 ≤ i ∧ i < (T : ℤ) then x b c i.toNat else 0

/-- Learned parameters of one `nn.Conv1d` / `nn.ConvTranspose1d`:
`weight o i j` and `bias o`.  For a grouped convolution `i` ranges over the
per-group input channels, matching the torch weight layout
`(outC, inC // groups, k)`. -/
structure Conv1dParams where
  weight : ℕ → ℕ → ℕ → ℝ
  bias : ℕ → ℝ

/-- Value semantics of `nn.Conv1d(inC, outC, k, 1, pad, dilation, groups)`
on an input of time length `T` (zero padding, stride 1 — every plain
convolution in this source has stride 1).  Output channel `o` belongs to
group `o / (outC / groups)` and reads input channels starting at
`(o / (outC / groups)) * (inC / groups)`. -/
def conv1dV (p : Conv1dParams) (inC outC k pad dil groups T : ℕ) (x : T3) : T3 :=
  fun b o t =>
    p.bias o + ∑ i ∈ Finset.range (inC / groups), ∑ j ∈ Finset.range k,
      p.weight o i j *
        padGet x T b (o / (outC / groups) * (inC / groups) + i)
          ((t : ℤ) + (dil : ℤ) * (j : ℤ) - (pad : ℤ))

/-- Value semantics of `nn.ConvTranspose1d(inC, outC, k, stride, pad)` on an
input of time length `T`: output position `t` accumulates
`weight[ci][o][j] * x[b][ci][i]` over all `(i, j)` with
`i * stride + j = t + pad`.  (The output channel count only affects the
shape, handled by the shape layer.) -/
def convT1dV (p : Conv1dParams) (inC k st : ℕ) (pad : ℤ) (T : ℕ) (x : T3) : T3 :=
  fun b o t =>
    p.bias o + ∑ ci ∈ Finset.range inC, ∑ i ∈ Finset.range T, ∑ j ∈ Finset.range k,
      if (i : ℤ) * (st : ℤ) + (j : ℤ) = (t : ℤ) + pad then p.weight ci o j * x b ci i
      else 0

/-- Value of `F.leaky_relu(x, slope)`. -/
def leakyRelu (slope x : ℝ) : ℝ := if 0 ≤ x then x else slope * x

/-- The standard normal cumulative distribution function, used by the exact
(default) form of `F.gelu`. -/
def stdGaussCdf (x : ℝ) : ℝ :=
  ∫ u in Set.Iic x, Real.exp (-(u ^ 2) / 2) / Real.sqrt (2 * Real.pi)

/-- Value of `F.gelu(x) = x * Φ(x)` (exact form). -/
def gelu (x : ℝ) : ℝ := x * stdGaussCdf x

/-- Constant `LRELU_SLOPE = 0.1` from the source. -/
def lreluSlope : ℝ := 1 / 10

/-- Parameters of `F0Encoder`: two 1x1 convolutions. -/
structure F0EncoderP where
  c1 : Conv1dParams
  c2 : Conv1dParams

/-- Parameters of `GaussianEncoder`: depthwise conv and two 1x1 convs. -/
structure GaussianEncoderP where
  c1 : Conv1dParams
  c2 : Conv1dParams
  c3 : Conv1dParams

/-- Value semantics of `F0Encoder.forward`: `c2(sin(c1(x)))`. -/
def f0EncForward (p : F0EncoderP) (D T : ℕ) (f0 : T3) : T3 :=
  let a := conv1dV p.c1 1 D 1 0 1 1 T f0
  let s : T3 := fun b c t => Real.sin (a b c t)
  conv1dV p.c2 D D 1 0 1 1 T s

/-- Value semantics of `AmplitudeEncoder.forward`: a single 1x1 conv. -/
def ampEncForward (p : Conv1dParams) (D T : ℕ) (amp : T3) : T3 :=
  conv1dV p 1 D 1 0 1 1 T amp

/-- Value semantics of `GaussianEncoder.forward` before the chunk:
`c3(gelu(c2(c1(x))))`, where `c1` has kernel 7, padding 3 and the literal
`groups=768` from the source, and `c3` outputs `2*D` channels. -/
def gaussianEncFull (p : GaussianEncoderP) (hubert D T : ℕ) (x : T3) : T3 :=
  let a := conv1dV p.c1 hubert hubert 7 3 1 768 T x
  let b2 := conv1dV p.c2 hubert hubert 1 0 1 1 T a
  let g : T3 := fun b c t => gelu (b2 b c t)
  conv1dV p.c3 hubert (2 * D) 1 0 1 1 T g

/-- Lower half of `torch.chunk(2, dim=1)`: channels `c < D` read unchanged. -/
def chunk2lo (y : T3) : T3 := fun b c t => y b c t

/-- Upper half of `torch.chunk(2, dim=1)`: channel `c` reads channel `D + c`. -/
def chunk2hi (D : ℕ) (y : T3) : T3 := fun b c t => y b (D + c) t

/-- Parameters of one `ResBlock`: its kernel size and, for each dilation in
construction order, the pair of convolutions appended to `convs1`/`convs2`
(the forward pass zips the two lists, which this list-of-triples mirrors). -/
structure ResBlockP where
  kernel : ℕ
  items : List (ℕ × Conv1dParams × Conv1dParams)

/-- Parameters of one `MRF`: its parallel `ResBlock`s. -/
structure MRFP where
  blocks : List ResBlockP

/-- Value semantics of `ResBlock.forward`: for each `(dilation, c1, c2)`,
`x = c2(leaky_relu(c1(leaky_relu(x)))) + x`, with padding
`get_padding(k, d) = (k-1)*d // 2`. -/
def resBlockForward (p : ResBlockP) (C T : ℕ) (x : T3) : T3 :=
  p.items.foldl (fun h it =>
    let xt : T3 := fun b c t => leakyRelu lreluSlope (h b c t)
    let xt2 := conv1dV it.2.1 C C p.kernel ((p.kernel - 1) * it.1 / 2) it.1 1 T xt
    let xt3 : T3 := fun b c t => leakyRelu lreluSlope (xt2 b c t)
    let xt4 := conv1dV it.2.2 C C p.kernel ((p.kernel - 1) * it.1 / 2) it.1 1 T xt3
    fun b c t => xt4 b c t + h b c t) x

/-- Value semantics of `MRF.forward`: `out = 0`, then `out += block(x)` for
each block — the elementwise sum of the block outputs. -/
def mrfForward (m : MRFP) (C T : ℕ) (x : T3) : T3 :=
  m.blocks.foldl (fun acc blk => fun b c t => acc b c t + resBlockForward blk C T x b c t)
    (fun _ _ _ => 0)

/-- Static configuration of the decoder (value layer); `numKernels` is the
stored `self.num_kernels = len(resblock_kernel_sizes)`. -/
structure DecoderCfgV where
  hubert : ℕ
  inputChannels : ℕ
  upInit : ℕ
  pairs : List (ℕ × ℕ)
  numKernels : ℕ

/-- All parameters of a `Decoder` instance. -/
structure DecoderP where
  cfg : DecoderCfgV
  pre : Conv1dParams
  post : Conv1dParams
  f0Enc : F0EncoderP
  ampEnc : Conv1dParams
  gaussianEnc : GaussianEncoderP
  ups : List Conv1dParams
  mrfs : List MRFP

/-- The latent mean: lower chunk of the Gaussian encoder output. -/
def decoderMu (d : DecoderP) (T : ℕ) (x : T3) : T3 :=
  chunk2lo (gaussianEncFull d.gaussianEnc d.cfg.hubert d.cfg.inputChannels T x)

/-- The latent log-scale: upper chunk of the Gaussian encoder output. -/
def decoderSigma (d : DecoderP) (T : ℕ) (x : T3) : T3 :=
  chunk2hi d.cfg.inputChannels
    (gaussianEncFull d.gaussianEnc d.cfg.hubert d.cfg.inputChannels T x)

/-- The sampled latent of `Decoder.forward`:
`x = mu + torch.exp(sigma) * noise`, where a missing noise argument means a
fresh standard-normal draw `torch.randn_like(sigma)` — modelled by the
ambient draw `rng` (the shape layer records that its shape is sigma's). -/
def decoderLatent (d : DecoderP) (T : ℕ) (x : T3) (noise : Option T3) (rng : T3) : T3 :=
  fun b c t =>
    decoderMu d T x b c t + Real.exp (decoderSigma d T x b c t) * (noise.getD rng) b c t

/-- Value semantics of the decoder's upsampling cascade, iterating over the
zipped `(stride, kernel)` pairs, transposed convolutions and MRFs.  Stage
`i` maps `upInit // 2^i` channels to `upInit // 2^(i+1)`; the transposed
convolution uses padding `(k - s) // 2` (Python floor division, hence
`Int.fdiv`) and produces time length `(T-1)*s + k - 2*pad`; the MRF output
is divided by `numK`.  Returns the final tensor with its channel count and
time length. -/
def runStages (numK upInit : ℕ) :
    List ((ℕ × ℕ) × Conv1dParams × MRFP) → ℕ → ℕ → T3 → T3 × ℕ × ℕ
  | [], i, T, h => (h, upInit / 2 ^ i, T)
  | (sk, upP, m) :: rest, i, T, h =>
      let st := sk.1
      let k := sk.2
      let cIn := upInit / 2 ^ i
      let cOut := upInit / 2 ^ (i + 1)
      let pad : ℤ := Int.fdiv ((k : ℤ) - (st : ℤ)) 2
      let h1 : T3 := fun b c t => leakyRelu lreluSlope (h b c t)
      let h2 := convT1dV upP cIn k st pad T h1
      let T2 := (((T : ℤ) - 1) * (st : ℤ) + (k : ℤ) - 2 * pad).toNat
      let h3 : T3 := fun b c t => mrfForward m cOut T2 h2 b c t / (numK : ℝ)
      runStages numK upInit rest (i + 1) T2 h3

/-- Value semantics of `Decoder.forward`: encode pitch and amplitude, sample
the latent, pre-convolution plus the two encodings, the upsampling cascade,
a final leaky-ReLU (torch default slope 0.01 here), the post-convolution to
one channel, `tanh`, and `squeeze(1)`.  Returns (waveform, mean, log-scale). -/
def forwardV (d : DecoderP) (T : ℕ) (x f0 amp : T3) (noise : Option T3) (rng : T3) :
    (ℕ → ℕ → ℝ) × T3 × T3 :=
  let f0e := f0EncForward d.f0Enc d.cfg.inputChannels T f0
  let ampe := ampEncForward d.ampEnc d.cfg.inputChannels T amp
  let mu := decoderMu d T x
  let sigma := decoderSigma d T x
  let z := decoderLatent d T x noise rng
  let pr := conv1dV d.pre d.cfg.inputChannels d.cfg.upInit 7 3 1 1 T z
  let h0 : T3 := fun b c t => pr b c t + f0e b c t + ampe b c t
  let res := runStages d.cfg.numKernels d.cfg.upInit
    (d.cfg.pairs.zip (d.ups.zip d.mrfs)) 0 T h0
  let hr : T3 := fun b c t => leakyRelu (1 / 100) (res.1 b c t)
  let hp := conv1dV d.post res.2.1 1 7 3 1 1 res.2.2 hr
  (fun b t => Real.tanh (hp b 0 t), mu, sigma)

/-- Value semantics of `Decoder.decode`: draw noise
`torch.randn(x.shape[0], 256, x.shape[2], device=...) * noise_gain` — the
draw is the ambient `rng` scaled by the gain (its hard-coded 256-channel
shape lives in the shape layer) — and run `forward` with it, keeping only
the waveform. -/
def decodeV (d : DecoderP) (T : ℕ) (x f0 amp : T3) (noiseGain : ℝ) (rng : T3) :
    ℕ → ℕ → ℝ :=
  (forwardV d T x f0 amp (some (fun b c t => rng b c t * noiseGain)) rng).1

end

noncomputable section

/-- Index of the maximal value of `f` among `best :: l`, scanned left to
right with strict improvement — ties keep the earlier index, matching
torch's CPU behavior of returning the first maximal index. -/
def argmaxAux (f : ℕ → ℝ) : List ℕ → ℕ → ℕ
  | [], best => best
  | i :: rest, best => if f best < f i then argmaxAux f rest i else argmaxAux f rest best

/-- Indices of the `k` largest values of `f` over the candidate list, in
decreasing value order (`torch.topk(..., k, dim)`): repeatedly extract the
first-occurring maximum.  When fewer than `k` candidates remain the list
just ends; `matchFeatures` separately enforces torch's requirement
`k ≤ dim size`. -/
def topkList (f : ℕ → ℝ) : List ℕ → ℕ → List ℕ
  | _, 0 => []
  | cands, k + 1 =>
      match cands with
      | [] => []
      | i :: rest =>
          let j := argmaxAux f rest i
          j :: topkList f ((i :: rest).erase j) k

/-- Value of `torch.norm(v, dim=2)` after the transpose in `match_features`: the
Euclidean norm of the channel vector at batch `n`, timestep `t`. -/
def tNormC (C : ℕ) (v : T3) (n t : ℕ) : ℝ :=
  Real.sqrt (∑ c ∈ Finset.range C, v n c t ^ 2)

/-- The cosine-similarity matrix of `match_features`:
`bmm(source/|source|, (reference/|reference|)^T)` entrywise. -/
def cosSims (C : ℕ) (source reference : T3) (n t tr : ℕ) : ℝ :=
  ∑ c ∈ Finset.range C,
    (source n c t / tNormC C source n t) * (reference n c tr / tNormC C reference n tr)

/-- Value semantics of `match_features(source, reference, k, alpha)`:
`C` is the shared channel width and `Lr` the reference time length.  For
each source position, gather the `k` reference timesteps most cosine-similar
to it, average them (`.mean(dim=2)` divides by the gathered count), and
blend: `result * (1 - alpha) + source * alpha`.  `torch.topk` raises when
`k` exceeds the reference length, hence the `Option`. -/
def matchFeatures (C Lr : ℕ) (source reference : T3) (k : ℕ) (alpha : ℝ) : Option T3 :=
  if k ≤ Lr then
    some (fun n c t =>
      let idxs := topkList (cosSims C source reference n t) (List.range Lr) k
      ((idxs.map fun j => reference n c j).sum / (idxs.length : ℝ)) * (1 - alpha)
        + source n c t * alpha)
  else none

/-- Parameters of `ChannelNorm`: channel count, the learned per-channel
affine `scale`/`shift` (shapes `(1, C, 1)` in torch, broadcast over batch
and time), and the epsilon added to the standard deviation. -/
structure ChannelNormP where
  C : ℕ
  scale : ℕ → ℝ
  shift : ℕ → ℝ
  eps : ℝ

/-- Value of `x.mean(dim=1)`: the channel mean at batch `b`, timestep `t`. -/
def tmean (x : T3) (C b t : ℕ) : ℝ := (∑ c ∈ Finset.range C, x b c t) / C

/-- Value of `x.std(dim=1)`: torch's default unbiased sample standard deviation over
the channel axis (division by `C - 1`). -/
def tstd (x : T3) (C b t : ℕ) : ℝ :=
  Real.sqrt ((∑ c ∈ Finset.range C, (x b c t - tmean x C b t) ^ 2) / ((C : ℝ) - 1))

/-- Value semantics of `ChannelNorm.forward`:
`(x - mean) / (std + eps) * scale + shift`. -/
def channelNormForward (p : ChannelNormP) (x : T3) : T3 :=
  fun b c t =>
    (x b c t - tmean x p.C b t) / (tstd x p.C b t + p.eps) * p.scale c + p.shift c

end

/-- A possibly weight-normalized convolution module.  When
`hasWeightNorm = true` the module carries the `weight_norm` forward
pre-hook and its learned parameters are the per-output-channel magnitude
`g` (`weight_g`) and the direction tensor `v` (`weight_v`); the effective
weight is `g * v / ‖v‖` with the norm taken per output channel.  When
`hasWeightNorm = false` there is no hook and `v` itself is the plain
`weight` parameter. -/
structure WNConv1d where
  hasWeightNorm : Bool
  outC : ℕ
  inC : ℕ
  k : ℕ
  g : ℕ → ℝ
  v : ℕ → ℕ → ℕ → ℝ
  bias : ℕ → ℝ

noncomputable section

/-- Per-output-channel Euclidean norm of the direction tensor. -/
def vNorm (c : WNConv1d) (o : ℕ) : ℝ :=
  Real.sqrt (∑ i ∈ Finset.range c.inC, ∑ j ∈ Finset.range c.k, c.v o i j ^ 2)

/-- The folded weight `g * v / ‖v‖` that `remove_weight_norm` writes back
into the module's `weight` parameter. -/
def foldedWeight (c : WNConv1d) : ℕ → ℕ → ℕ → ℝ :=
  fun o i j => c.g o * c.v o i j / vNorm c o

/-- The weight actually used by the module's forward pass: the weight-norm
hook recomputes `g * v / ‖v‖` before every call; a plain module uses its
stored weight directly. -/
def effectiveWeight (c : WNConv1d) : ℕ → ℕ → ℕ → ℝ :=
  if c.hasWeightNorm then foldedWeight c else c.v

/-- Behavior of `torch.nn.utils.remove_weight_norm(module)` on a convolution: if the
module has the weight-norm hook, replace the two-parameter form by the
single folded weight and drop the hook; otherwise raise
`ValueError: weight_norm of 'weight' not found in ...`. -/
def torchRemoveWeightNormConv (c : WNConv1d) : Except String WNConv1d :=
  if c.hasWeightNorm then
    Except.ok { c with hasWeightNorm := false, v := foldedWeight c }
  else Except.error "ValueError: weight_norm of weight not found in Conv1d"

end

/-- The sub-modules of one `ResBlock`: the two convolution lists. -/
structure ResBlockM where
  convs1 : List WNConv1d
  convs2 : List WNConv1d

/-- The sub-modules of one `MRF`: its parallel `ResBlock`s. -/
structure MRFM where
  blocks : List ResBlockM

/-- The convolution-owning sub-modules of a `Decoder`.  Per `__init__`,
`pre` and `post` are plain (never weight-normalized) convolutions while
every `ups` entry and every convolution inside every `ResBlock` is wrapped
in `weight_norm`. -/
structure DecoderM where
  pre : WNConv1d
  post : WNConv1d
  ups : List WNConv1d
  mrfs : List MRFM

/-- Behavior of `torch.nn.utils.remove_weight_norm` applied to a whole `ResBlock`
module: the function inspects the module it is given for a weight-norm
hook on a parameter named `weight`; a `ResBlock` registers none (its
convolutions live in `convs1`/`convs2`), so the call always raises. -/
def torchRemoveWeightNormResBlock (_r : ResBlockM) : Except String ResBlockM :=
  Except.error "ValueError: weight_norm of weight not found in ResBlock"

/-- Behavior of `torch.nn.utils.remove_weight_norm` applied to a whole `MRF` module:
as for `ResBlock`, the `MRF` itself has no weight-norm hook, so the call
always raises. -/
def torchRemoveWeightNormMRF (_m : MRFM) : Except String MRFM :=
  Except.error "ValueError: weight_norm of weight not found in MRF"

/-- Method `ResBlock.remove_weight_norm`: iterates the zipped convolution pairs
and applies the torch removal to each convolution (in the source the two
lists always have equal length, one pair per dilation). -/
noncomputable def resBlockRemoveWeightNorm (r : ResBlockM) : Except String ResBlockM := do
  let c1 ← r.convs1.mapM torchRemoveWeightNormConv
  let c2 ← r.convs2.mapM torchRemoveWeightNormConv
  pure ⟨c1, c2⟩

/-- Method `MRF.remove_weight_norm` as written in the source
(`for block in self.blocks: remove_weight_norm(block)`): the name
`remove_weight_norm` resolves to the imported torch function, not to
`block.remove_weight_norm`, so it is applied to each `ResBlock` container
module — and raises. -/
def mrfRemoveWeightNorm (m : MRFM) : Except String MRFM := do
  let bs ← m.blocks.mapM torchRemoveWeightNormResBlock
  pure ⟨bs⟩

/-- Method `Decoder.remove_weight_norm` as written in the source: torch removal on
`self.pre`, then `self.post`, then each upsampling convolution, then
(`remove_weight_norm(MRF)`, again the torch function, not the method) each
MRF container module.  The first statement already determines the result:
`self.pre` was never weight-normalized. -/
noncomputable def decoderRemoveWeightNorm (d : DecoderM) : Except String DecoderM := do
  let pre2 ← torchRemoveWeightNormConv d.pre
  let post2 ← torchRemoveWeightNormConv d.post
  let ups2 ← d.ups.mapM torchRemoveWeightNormConv
  let mrfs2 ← d.mrfs.mapM torchRemoveWeightNormMRF
  pure ⟨pre2, post2, ups2, mrfs2⟩

/-- A convolution module with zeroed parameters and the given hook state;
parameter values are irrelevant to the removal control flow. -/
noncomputable def mkWNConv (wn : Bool) : WNConv1d :=
  ⟨wn, 1, 1, 1, fun _ => 1, fun _ _ _ => 1, fun _ => 0⟩

/-- A `ResBlock` as constructed with the default three dilations: three
weight-normalized convolutions in each list. -/
noncomputable def exampleResBlockM : ResBlockM :=
  ⟨List.replicate 3 (mkWNConv true), List.replicate 3 (mkWNConv true)⟩

/-- An `MRF` as constructed with the default three kernel sizes. -/
noncomputable def exampleMRFM : MRFM :=
  ⟨List.replicate 3 exampleResBlockM⟩

/-- A `Decoder`'s modules as constructed with the defaults: plain `pre` and
`post`, four weight-normalized upsampling convolutions, four MRFs. -/
noncomputable def exampleDecoderM : DecoderM :=
  ⟨mkWNConv false, mkWNConv false, List.replicate 4 (mkWNConv true),
    List.replicate 4 exampleMRFM⟩

/-- Folding preserves the weight the forward pass uses: on a
weight-normalized convolution, the removal succeeds and the resulting plain
module computes with exactly the weight `g * v / ‖v‖` that the
two-parameter form computed with — the numerical-equivalence half of the
fold contract. -/
lemma effectiveWeight_fold (c : WNConv1d) (h : c.hasWeightNorm = true) :
    ∃ c', torchRemoveWeightNormConv c = Except.ok c'
      ∧ effectiveWeight c' = effectiveWeight c := by
  refine ⟨{ c with hasWeightNorm := false, v := foldedWeight c }, ?_, ?_⟩
  · simp [torchRemoveWeightNormConv, h]
  · simp [effectiveWeight, h]

/-- C1: the spec's fold contract says `Decoder.remove_weight_norm` succeeds
and recursively folds every weight-normalized convolution.  On the code as
written it instead raises at its very first statement: `self.pre` (like
`self.post`) was never wrapped in `weight_norm`, so
`torch.nn.utils.remove_weight_norm(self.pre)` raises `ValueError`; moreover
the loop `remove_weight_norm(MRF)` — and `MRF.remove_weight_norm`'s own
loop `remove_weight_norm(block)` — call the imported torch function on
container modules carrying no weight-norm hook, so even the recursion into
the ResBlock convolutions is unreachable.  Evaluated on the
default-constructed module tree. -/
theorem decoder_remove_weight_norm_raises :
    decoderRemoveWeightNorm exampleDecoderM
        = Except.error "ValueError: weight_norm of weight not found in Conv1d"
    ∧ mrfRemoveWeightNorm exampleMRFM
        = Except.error "ValueError: weight_norm of weight not found in ResBlock" :=
  ⟨rfl, rfl⟩

/-- C2: for the default decoder configuration (strides [8,8,2,2], kernels
[16,16,4,4]) and inputs of any common time length `T ≥ 1`, the waveform
returned by `Decoder.forward` has time length exactly `256 * T`, the
product of the upsampling strides. -/
theorem decoder_output_length_default (N T : ℕ) (hT : 1 ≤ T) :
    forwardShape (defaultShapeCfg 256) ⟨N, 768, T⟩ ⟨N, 1, T⟩ ⟨N, 1, T⟩ none
      = some (N, 256 * T) :=
  forwardShape_noise256 N T hT none rfl

/-- C2 witness: input length 10 yields output length 2560. -/
theorem decoder_output_length_default_witness :
    1 ≤ 10
    ∧ forwardShape (defaultShapeCfg 256) ⟨1, 768, 10⟩ ⟨1, 1, 10⟩ ⟨1, 1, 10⟩ none
      = some (1, 2560) :=
  ⟨by norm_num, by
    have h := decoder_output_length_default 1 10 (by norm_num)
    norm_num at h
    exact h⟩

/-- C3: inside `Decoder.forward` the sampled latent equals
`mu + exp(sigma) ⊙ noise` elementwise, where `mu` and `sigma` are the two
equal halves of the Gaussian encoder's output split along the channel axis
(`c` and `input_channels + c`); when no noise tensor is supplied the draw
`torch.randn_like(sigma)` (the ambient standard-normal source `rng`, whose
shape the shape layer fixes to sigma's) takes its place; and `forward`
surfaces exactly these `mu`/`sigma` as its second and third results. -/
theorem decoder_sampled_latent_eq (d : DecoderP) (T : ℕ) (x n rng : T3) (b c t : ℕ)
    (hc : c < d.cfg.inputChannels) :
    decoderLatent d T x (some n) rng b c t
        = decoderMu d T x b c t + Real.exp (decoderSigma d T x b c t) * n b c t
    ∧ decoderLatent d T x none rng b c t
        = decoderMu d T x b c t + Real.exp (decoderSigma d T x b c t) * rng b c t
    ∧ decoderMu d T x b c t
        = gaussianEncFull d.gaussianEnc d.cfg.hubert d.cfg.inputChannels T x b c t
    ∧ decoderSigma d T x b c t
        = gaussianEncFull d.gaussianEnc d.cfg.hubert d.cfg.inputChannels T x
            b (d.cfg.inputChannels + c) t
    ∧ (∀ f0 amp noise, (forwardV d T x f0 amp noise rng).2.1 b c t
        = decoderMu d T x b c t)
    ∧ (∀ f0 amp noise, (forwardV d T x f0 amp noise rng).2.2 b c t
        = decoderSigma d T x b c t) :=
  ⟨rfl, rfl, rfl, rfl, fun _ _ _ => rfl, fun _ _ _ => rfl⟩

/-- The all-zero tensor, used as a concrete instantiation point. -/
noncomputable def zf : T3 := fun _ _ _ => 0

/-- Zeroed convolution parameters for concrete decoder instances. -/
noncomputable def zeroConvP : Conv1dParams := ⟨fun _ _ _ => 0, fun _ => 0⟩

/-- A default-construction `ResBlock` parameter set with kernel `k` and the
default dilations 1, 3, 5. -/
noncomputable def exampleResBlockP (k : ℕ) : ResBlockP :=
  ⟨k, [(1, zeroConvP, zeroConvP), (3, zeroConvP, zeroConvP), (5, zeroConvP, zeroConvP)]⟩

/-- A default-construction `MRF` parameter set: kernels 3, 7, 11. -/
noncomputable def exampleMRFP : MRFP :=
  ⟨[exampleResBlockP 3, exampleResBlockP 7, exampleResBlockP 11]⟩

/-- A default-construction `Decoder` parameter set (zero weights). -/
noncomputable def exampleDecoderP : DecoderP :=
  ⟨⟨768, 256, 256, [(8, 16), (8, 16), (2, 4), (2, 4)], 3⟩, zeroConvP, zeroConvP,
    ⟨zeroConvP, zeroConvP⟩, zeroConvP, ⟨zeroConvP, zeroConvP, zeroConvP⟩,
    List.replicate 4 zeroConvP, List.replicate 4 exampleMRFP⟩

/-- C3 witness: the latent identity instantiated on a concrete
default-construction decoder at channel 0, which is below
`input_channels = 256`. -/
theorem decoder_sampled_latent_eq_witness :
    0 < exampleDecoderP.cfg.inputChannels
    ∧ (decoderLatent exampleDecoderP 1 zf (some zf) zf 0 0 0
          = decoderMu exampleDecoderP 1 zf 0 0 0
            + Real.exp (decoderSigma exampleDecoderP 1 zf 0 0 0) * zf 0 0 0
        ∧ decoderLatent exampleDecoderP 1 zf none zf 0 0 0
          = decoderMu exampleDecoderP 1 zf 0 0 0
            + Real.exp (decoderSigma exampleDecoderP 1 zf 0 0 0) * zf 0 0 0
        ∧ decoderMu exampleDecoderP 1 zf 0 0 0
          = gaussianEncFull exampleDecoderP.gaussianEnc exampleDecoderP.cfg.hubert
              exampleDecoderP.cfg.inputChannels 1 zf 0 0 0
        ∧ decoderSigma exampleDecoderP 1 zf 0 0 0
          = gaussianEncFull exampleDecoderP.gaussianEnc exampleDecoderP.cfg.hubert
              exampleDecoderP.cfg.inputChannels 1 zf 0
              (exampleDecoderP.cfg.inputChannels + 0) 0
        ∧ (∀ f0 amp noise, (forwardV exampleDecoderP 1 zf f0 amp noise zf).2.1 0 0 0
            = decoderMu exampleDecoderP 1 zf 0 0 0)
        ∧ (∀ f0 amp noise, (forwardV exampleDecoderP 1 zf f0 amp noise zf).2.2 0 0 0
            = decoderSigma exampleDecoderP 1 zf 0 0 0)) :=
  ⟨by simp [exampleDecoderP],
    decoder_sampled_latent_eq exampleDecoderP 1 zf zf zf 0 0 0
      (by simp [exampleDecoderP])⟩

lemma forwardV_rng_irrel (d : DecoderP) (T : ℕ) (x f0 amp nz r1 r2 : T3) :
    forwardV d T x f0 amp (some nz) r1 = forwardV d T x f0 amp (some nz) r2 := rfl

lemma decodeV_zero_gain (d : DecoderP) (T : ℕ) (x f0 amp rng r2 : T3) :
    decodeV d T x f0 amp 0 rng = (forwardV d T x f0 amp (some (fun _ _ _ => 0)) r2).1 := by
  unfold decodeV
  have hz : (fun b c t => rng b c t * (0 : ℝ)) = (fun _ _ _ => (0 : ℝ)) := by
    funext b c t
    exact mul_zero _
  rw [hz]
  exact congrArg Prod.fst (forwardV_rng_irrel d T x f0 amp _ rng r2)

/-- C4: `Decoder.decode` with `noise_gain = 0` is deterministic — the drawn
noise is multiplied by 0, so any two draws give identical waveforms — and
equals `forward` run with an all-zero noise tensor, whose sampled latent is
exactly the distribution mean `mu`. -/
theorem decode_noise_gain_zero_deterministic (d : DecoderP) (T : ℕ)
    (x f0 amp rng1 rng2 : T3) :
    decodeV d T x f0 amp 0 rng1 = decodeV d T x f0 amp 0 rng2
    ∧ decodeV d T x f0 amp 0 rng1
        = (forwardV d T x f0 amp (some (fun _ _ _ => 0)) rng1).1
    ∧ ∀ b c t, decoderLatent d T x (some (fun _ _ _ => 0)) rng1 b c t
        = decoderMu d T x b c t := by
  refine ⟨?_, decodeV_zero_gain d T x f0 amp rng1 rng1, ?_⟩
  · rw [decodeV_zero_gain d T x f0 amp rng1 rng1, decodeV_zero_gain d T x f0 amp rng2 rng1]
  · intro b c t
    show decoderMu d T x b c t + Real.exp (decoderSigma d T x b c t) * (0 : ℝ) = _
    rw [mul_zero, add_zero]

lemma real_tanh_lt_one (y : ℝ) : Real.tanh y < 1 := by
  rw [Real.tanh_eq_sinh_div_cosh, div_lt_one (Real.cosh_pos y)]
  exact Real.sinh_lt_cosh y

lemma neg_one_lt_real_tanh (y : ℝ) : -1 < Real.tanh y := by
  rw [Real.tanh_eq_sinh_div_cosh, lt_div_iff₀ (Real.cosh_pos y)]
  have h := Real.sinh_lt_cosh (-y)
  rw [Real.sinh_neg, Real.cosh_neg] at h
  linarith

/-- C5: every sample of the waveform returned by `Decoder.forward` is the
output of the final `tanh` and hence lies in [-1, 1], for arbitrary real
inputs, parameters and noise. -/
theorem decoder_output_bounded (d : DecoderP) (T : ℕ) (x f0 amp rng : T3)
    (noise : Option T3) (b t : ℕ) :
    -1 ≤ (forwardV d T x f0 amp noise rng).1 b t
    ∧ (forwardV d T x f0 amp noise rng).1 b t ≤ 1 :=
  ⟨le_of_lt (neg_one_lt_real_tanh _), le_of_lt (real_tanh_lt_one _)⟩

lemma mrfForward_foldl (C T : ℕ) (x : T3) (b c t : ℕ) :
    ∀ (l : List ResBlockP) (acc : T3),
      (l.foldl (fun a blk => fun b2 c2 t2 => a b2 c2 t2 + resBlockForward blk C T x b2 c2 t2)
          acc) b c t
        = acc b c t + (l.map fun blk => resBlockForward blk C T x b c t).sum := by
  intro l
  induction l with
  | nil => intro acc; simp
  | cons blk tl ih =>
      intro acc
      rw [List.foldl_cons, ih]
      simp only [List.map_cons, List.sum_cons]
      ring

/-- C8: `MRF.forward` returns the elementwise sum (not the average) of its
parallel ResBlocks applied to the input, and dividing by
`num_kernels = len(resblock_kernel_sizes)` — the block count, as
`Decoder.forward` does at every stage — therefore yields the average of the
ResBlock outputs. -/
theorem mrf_sum_and_decoder_average (m : MRFP) (C T : ℕ) (x : T3) (numK : ℕ)
    (hlen : m.blocks.length = numK) (b c t : ℕ) :
    mrfForward m C T x b c t
        = (m.blocks.map fun blk => resBlockForward blk C T x b c t).sum
    ∧ mrfForward m C T x b c t / (numK : ℝ)
        = (m.blocks.map fun blk => resBlockForward blk C T x b c t).sum
          / (m.blocks.length : ℝ) := by
  have h1 : mrfForward m C T x b c t
      = (m.blocks.map fun blk => resBlockForward blk C T x b c t).sum := by
    unfold mrfForward
    rw [mrfForward_foldl C T x b c t m.blocks (fun _ _ _ => 0)]
    simp
  exact ⟨h1, by rw [h1, hlen]⟩

/-- C8 witness: a one-block MRF (whose block has an empty dilation list, so
the block is the identity) on a constant input. -/
theorem mrf_sum_and_decoder_average_witness :
    ((⟨[⟨3, []⟩]⟩ : MRFP)).blocks.length = 1
    ∧ (mrfForward ⟨[⟨3, []⟩]⟩ 4 5 (fun _ _ _ => 2) 0 0 0
          = (((⟨[⟨3, []⟩]⟩ : MRFP)).blocks.map
              (fun blk => resBlockForward blk 4 5 (fun _ _ _ => 2) 0 0 0)).sum
        ∧ mrfForward ⟨[⟨3, []⟩]⟩ 4 5 (fun _ _ _ => 2) 0 0 0 / ((1 : ℕ) : ℝ)
          = (((⟨[⟨3, []⟩]⟩ : MRFP)).blocks.map
              (fun blk => resBlockForward blk 4 5 (fun _ _ _ => 2) 0 0 0)).sum
            / (((⟨[⟨3, []⟩]⟩ : MRFP)).blocks.length : ℝ)) :=
  ⟨rfl, mrf_sum_and_decoder_average ⟨[⟨3, []⟩]⟩ 4 5 (fun _ _ _ => 2) 1 rfl 0 0 0⟩

/-- C10 counterexample: the claim asserts `forward` (with its internally
drawn noise) still succeeds when `input_channels ≠ 256`, but with the other
constructor defaults it does not: for `input_channels = 100` the
pre-convolution output has `upsample_initial_channels = 256` channels while
the pitch encoding has 100, and their sum cannot broadcast, so `forward`
raises as well. -/
theorem decode_channel_mismatch_ce :
    forwardShape (defaultShapeCfg 100) ⟨1, 768, 1⟩ ⟨1, 1, 1⟩ ⟨1, 1, 1⟩ none = none := by
  decide

/-- C10 (amended): `Decoder.decode` draws its noise with 256 channels
regardless of `input_channels`, so for every `input_channels ≠ 256` every
`decode` call fails with a shape-mismatch error, while at
`input_channels = 256` it succeeds and agrees with `forward`'s shape;
`forward` itself (internally drawn noise) succeeds when `input_channels`
matches the default `upsample_initial_channels = 256`, or equals 1 (by
broadcasting), and fails for every other `input_channels`. -/
theorem decode_channel_mismatch (ic N T : ℕ) (hT : 1 ≤ T) (h256 : ic ≠ 256) :
    decodeShape (defaultShapeCfg ic) ⟨N, 768, T⟩ ⟨N, 1, T⟩ ⟨N, 1, T⟩ = none
    ∧ decodeShape (defaultShapeCfg 256) ⟨N, 768, T⟩ ⟨N, 1, T⟩ ⟨N, 1, T⟩
        = some (N, 256 * T)
    ∧ forwardShape (defaultShapeCfg 256) ⟨N, 768, T⟩ ⟨N, 1, T⟩ ⟨N, 1, T⟩ none
        = some (N, 256 * T)
    ∧ forwardShape (defaultShapeCfg 1) ⟨N, 768, T⟩ ⟨N, 1, T⟩ ⟨N, 1, T⟩ none
        = some (N, 256 * T)
    ∧ (ic ≠ 1 →
        forwardShape (defaultShapeCfg ic) ⟨N, 768, T⟩ ⟨N, 1, T⟩ ⟨N, 1, T⟩ none = none) := by
  refine ⟨decodeShape_default_mismatch ic N T hT h256, ?_,
    forwardShape_noise256 N T hT none rfl, forwardShape_default1 N T hT,
    fun h1 => forwardShape_default_mismatch ic N T hT h256 h1⟩
  unfold decodeShape
  exact forwardShape_noise256 N T hT (some ⟨N, 256, T⟩) rfl

/-- C10 witness: concrete instance at `input_channels = 100`, batch 1,
time length 1. -/
theorem decode_channel_mismatch_witness :
    (1 ≤ 1 ∧ (100 : ℕ) ≠ 256)
    ∧ (decodeShape (defaultShapeCfg 100) ⟨1, 768, 1⟩ ⟨1, 1, 1⟩ ⟨1, 1, 1⟩ = none
        ∧ decodeShape (defaultShapeCfg 256) ⟨1, 768, 1⟩ ⟨1, 1, 1⟩ ⟨1, 1, 1⟩
            = some (1, 256 * 1)
        ∧ forwardShape (defaultShapeCfg 256) ⟨1, 768, 1⟩ ⟨1, 1, 1⟩ ⟨1, 1, 1⟩ none
            = some (1, 256 * 1)
        ∧ forwardShape (defaultShapeCfg 1) ⟨1, 768, 1⟩ ⟨1, 1, 1⟩ ⟨1, 1, 1⟩ none
            = some (1, 256 * 1)
        ∧ ((100 : ℕ) ≠ 1 →
            forwardShape (defaultShapeCfg 100) ⟨1, 768, 1⟩ ⟨1, 1, 1⟩ ⟨1, 1, 1⟩ none
              = none)) :=
  ⟨⟨by norm_num, by norm_num⟩, decode_channel_mismatch 100 1 1 (by norm_num) (by norm_num)⟩

noncomputable section

/-- The normalized channel vector used by `match_features`. -/
def normVec (C : ℕ) (S : T3) (n t c : ℕ) : ℝ := S n c t / tNormC C S n t

lemma normVec_sum_sq (C : ℕ) (S : T3) (n t : ℕ)
    (h : 0 < ∑ c ∈ Finset.range C, S n c t ^ 2) :
    ∑ c ∈ Finset.range C, normVec C S n t c ^ 2 = 1 := by
  unfold normVec tNormC
  have hA : (0 : ℝ) ≤ ∑ c ∈ Finset.range C, S n c t ^ 2 :=
    Finset.sum_nonneg fun c _ => sq_nonneg _
  have hsq : Real.sqrt (∑ c ∈ Finset.range C, S n c t ^ 2) ^ 2
      = ∑ c ∈ Finset.range C, S n c t ^ 2 := Real.sq_sqrt hA
  simp only [div_pow]
  rw [← Finset.sum_div, hsq, div_self (ne_of_gt h)]

lemma cosSims_eq_sum_normVec (C : ℕ) (S R : T3) (n t tr : ℕ) :
    cosSims C S R n t tr = ∑ c ∈ Finset.range C, normVec C S n t c * normVec C R n tr c :=
  rfl

lemma cosSims_self_eq_one (C : ℕ) (S : T3) (n t : ℕ)
    (h : 0 < ∑ c ∈ Finset.range C, S n c t ^ 2) :
    cosSims C S S n t t = 1 := by
  rw [cosSims_eq_sum_normVec]
  have : ∀ c ∈ Finset.range C, normVec C S n t c * normVec C S n t c
      = normVec C S n t c ^ 2 := fun c _ => (sq (normVec C S n t c)).symm
  rw [Finset.sum_congr rfl this]
  exact normVec_sum_sq C S n t h

/-- If the cosine similarity between positions `t` and `j` is at least 1
(its maximal value for nonzero vectors), the two normalized vectors agree:
the squared Euclidean distance of the normalized vectors is
`2 - 2·cos ≤ 0` and is a sum of squares. -/
lemma normVec_eq_of_one_le_cos (C : ℕ) (S : T3) (n t j : ℕ)
    (ht : 0 < ∑ c ∈ Finset.range C, S n c t ^ 2)
    (hj : 0 < ∑ c ∈ Finset.range C, S n c j ^ 2)
    (hge : 1 ≤ cosSims C S S n t j) :
    ∀ c ∈ Finset.range C, normVec C S n j c = normVec C S n t c := by
  have hD : ∑ c ∈ Finset.range C, (normVec C S n t c - normVec C S n j c) ^ 2
      = 2 - 2 * cosSims C S S n t j := by
    have hexp : ∀ c ∈ Finset.range C,
        (normVec C S n t c - normVec C S n j c) ^ 2
          = normVec C S n t c ^ 2 + normVec C S n j c ^ 2
            - 2 * (normVec C S n t c * normVec C S n j c) := fun c _ => by ring
    rw [Finset.sum_congr rfl hexp, Finset.sum_sub_distrib, Finset.sum_add_distrib,
      normVec_sum_sq C S n t ht, normVec_sum_sq C S n j hj, ← Finset.mul_sum,
      ← cosSims_eq_sum_normVec]
    ring
  have hDle : ∑ c ∈ Finset.range C, (normVec C S n t c - normVec C S n j c) ^ 2 ≤ 0 := by
    rw [hD]
    linarith
  have hD0 : ∑ c ∈ Finset.range C, (normVec C S n t c - normVec C S n j c) ^ 2 = 0 :=
    le_antisymm hDle (Finset.sum_nonneg fun c _ => sq_nonneg _)
  intro c hc
  have hterm := (Finset.sum_eq_zero_iff_of_nonneg
    (fun c2 _ => sq_nonneg (normVec C S n t c2 - normVec C S n j c2))).mp hD0 c hc
  have := sq_eq_zero_iff.mp hterm
  linarith [this]

lemma argmaxAux_mem (f : ℕ → ℝ) :
    ∀ (l : List ℕ) (b : ℕ), argmaxAux f l b = b ∨ argmaxAux f l b ∈ l := by
  intro l
  induction l with
  | nil => intro b; left; rfl
  | cons i rest ih =>
      intro b
      unfold argmaxAux
      by_cases h : f b < f i
      · rw [if_pos h]
        rcases ih i with h1 | h1
        · right; rw [h1]; exact List.mem_cons_self i rest
        · right; exact List.mem_cons_of_mem i h1
      · rw [if_neg h]
        rcases ih b with h1 | h1
        · left; exact h1
        · right; exact List.mem_cons_of_mem i h1

lemma le_argmaxAux (f : ℕ → ℝ) :
    ∀ (l : List ℕ) (b : ℕ), f b ≤ f (argmaxAux f l b) := by
  intro l
  induction l with
  | nil => intro b; exact le_refl _
  | cons i rest ih =>
      intro b
      unfold argmaxAux
      by_cases h : f b < f i
      · rw [if_pos h]
        exact le_of_lt (lt_of_lt_of_le h (ih i))
      · rw [if_neg h]
        exact ih b

lemma argmaxAux_ge (f : ℕ → ℝ) :
    ∀ (l : List ℕ) (b x : ℕ), x ∈ l → f x ≤ f (argmaxAux f l b) := by
  intro l
  induction l with
  | nil => intro b x hx; cases hx
  | cons i rest ih =>
      intro b x hx
      unfold argmaxAux
      rcases List.mem_cons.mp hx with rfl | hx'
      · by_cases h : f b < f x
        · rw [if_pos h]
          exact le_argmaxAux f rest x
        · rw [if_neg h]
          exact le_trans (le_of_not_lt h) (le_argmaxAux f rest b)
      · by_cases h : f b < f i
        · rw [if_pos h]
          exact ih i x hx'
        · rw [if_neg h]
          exact ih b x hx'

end

/-- C6 (amended): with `k = 1`, `alpha = 0` and `reference = source = S`,
`match_features` returns `S` unchanged on every in-range position provided
the timestep vectors (of the batch row considered) are all nonzero and no
timestep vector is a positive scalar multiple of a differently-valued
timestep vector.  Without that proviso the claim fails (see the
counterexample): a rescaled copy of a vector has cosine similarity exactly
1 with it, topk breaks the tie by index, and the gathered neighbor differs
from the source vector. -/
theorem match_features_k1_self_id (C L : ℕ) (S : T3) (n : ℕ) (hL : 1 ≤ L)
    (hnz : ∀ t, t < L → 0 < ∑ c ∈ Finset.range C, S n c t ^ 2)
    (hcol : ∀ t j, t < L → j < L →
      (∃ lam : ℝ, 0 < lam ∧ ∀ c, c < C → S n c j = lam * S n c t) →
      ∀ c, c < C → S n c j = S n c t) :
    ∃ g, matchFeatures C L S S 1 0 = some g
      ∧ ∀ c t, c < C → t < L → g n c t = S n c t := by
  unfold matchFeatures
  rw [if_pos hL]
  refine ⟨_, rfl, ?_⟩
  intro c t hc htL
  obtain ⟨L', rfl⟩ : ∃ L', L = L' + 1 := ⟨L - 1, by omega⟩
  dsimp only
  rw [List.range_succ_eq_map]
  set f := cosSims C S S n t with hf
  rw [show topkList f (0 :: (List.range L').map Nat.succ) 1
      = [argmaxAux f ((List.range L').map Nat.succ) 0] from rfl]
  set j := argmaxAux f ((List.range L').map Nat.succ) 0 with hjdef
  have hjL : j < L' + 1 := by
    rcases argmaxAux_mem f ((List.range L').map Nat.succ) 0 with h | h
    · omega
    · obtain ⟨a, ha, hae⟩ := List.mem_map.mp h
      have ha2 := List.mem_range.mp ha
      rw [hjdef, ← hae]
      omega
  have hmax : f t ≤ f j := by
    have htmem : t ∈ 0 :: (List.range L').map Nat.succ := by
      rw [← List.range_succ_eq_map]
      exact List.mem_range.mpr htL
    rcases List.mem_cons.mp htmem with rfl | hmem
    · exact le_argmaxAux f _ 0
    · exact argmaxAux_ge f _ 0 t hmem
  have hft : f t = 1 := cosSims_self_eq_one C S n t (hnz t htL)
  have hge1 : (1 : ℝ) ≤ f j := by
    rw [← hft]
    exact hmax
  have heq := normVec_eq_of_one_le_cos C S n t j (hnz t htL) (hnz j hjL) hge1
  have hntpos : 0 < tNormC C S n t := Real.sqrt_pos.mpr (hnz t htL)
  have hnjpos : 0 < tNormC C S n j := Real.sqrt_pos.mpr (hnz j hjL)
  have hlam : ∀ c2, c2 < C → S n c2 j
      = (tNormC C S n j / tNormC C S n t) * S n c2 t := by
    intro c2 hc2
    have h2 := heq c2 (Finset.mem_range.mpr hc2)
    unfold normVec at h2
    field_simp at h2
    rw [div_mul_eq_mul_div, eq_div_iff (ne_of_gt hntpos)]
    linarith [h2]
  have hSeq := hcol t j htL hjL
    ⟨tNormC C S n j / tNormC C S n t, div_pos hnjpos hntpos, hlam⟩
  rw [List.map_singleton, List.sum_singleton, List.length_singleton]
  rw [hSeq c hc]
  norm_num

/-- C6 counterexample tensor: one channel, timestep vectors (1) and (2) —
the second is a positive rescaling of the first. -/
noncomputable def sEx6 : T3 := fun _ _ t => (t : ℝ) + 1

/-- C6 counterexample: with `source = reference = sEx6`, `k = 1`,
`alpha = 0`, the output at timestep 1 is the timestep-0 vector (1), not the
source vector (2): both reference timesteps have cosine similarity exactly
1 with the source vector, and topk returns the first maximal index, 0.  So
`match_features(S, S, 1, 0) = S` fails as stated. -/
theorem match_features_k1_self_ce :
    (matchFeatures 1 2 sEx6 sEx6 1 0).map (fun g => g 0 0 1) = some 1
    ∧ sEx6 0 0 1 = 2 := by
  constructor
  · have hn0 : tNormC 1 sEx6 0 0 = 1 := by
      unfold tNormC
      rw [Finset.sum_range_one]
      rw [show sEx6 0 0 0 = 1 from by norm_num [sEx6]]
      rw [one_pow, Real.sqrt_one]
    have hn1 : tNormC 1 sEx6 0 1 = 2 := by
      unfold tNormC
      rw [Finset.sum_range_one]
      rw [show sEx6 0 0 1 = 2 from by norm_num [sEx6]]
      exact Real.sqrt_sq (by norm_num)
    have hc10 : cosSims 1 sEx6 sEx6 0 1 0 = 1 := by
      unfold cosSims
      rw [Finset.sum_range_one, hn0, hn1]
      rw [show sEx6 0 0 1 = 2 from by norm_num [sEx6],
        show sEx6 0 0 0 = 1 from by norm_num [sEx6]]
      norm_num
    have hc11 : cosSims 1 sEx6 sEx6 0 1 1 = 1 := by
      unfold cosSims
      rw [Finset.sum_range_one, hn1]
      rw [show sEx6 0 0 1 = 2 from by norm_num [sEx6]]
      norm_num
    have hargmax : argmaxAux (cosSims 1 sEx6 sEx6 0 1) [1] 0 = 0 := by
      unfold argmaxAux
      rw [hc10, hc11, if_neg (lt_irrefl 1)]
      rfl
    have htop : topkList (cosSims 1 sEx6 sEx6 0 1) (List.range 2) 1 = [0] := by
      rw [show List.range 2 = [0, 1] from rfl]
      rw [show topkList (cosSims 1 sEx6 sEx6 0 1) [0, 1] 1
          = argmaxAux (cosSims 1 sEx6 sEx6 0 1) [1] 0
            :: topkList (cosSims 1 sEx6 sEx6 0 1)
                ([0, 1].erase (argmaxAux (cosSims 1 sEx6 sEx6 0 1) [1] 0)) 0 from rfl]
      rw [hargmax]
      rfl
    unfold matchFeatures
    rw [if_pos (by norm_num)]
    rw [Option.map_some']
    dsimp only
    rw [htop, List.map_singleton, List.sum_singleton, List.length_singleton]
    rw [show sEx6 0 0 0 = 1 from by norm_num [sEx6]]
    norm_num
  · norm_num [sEx6]

/-- C6 witness tensor: a single constant timestep vector. -/
noncomputable def sEx6w : T3 := fun _ _ _ => 1

/-- C6 witness: the amended statement instantiated at a one-timestep,
one-channel batch of ones, whose hypotheses hold concretely. -/
theorem match_features_k1_self_id_witness :
    (∀ t, t < 1 → 0 < ∑ c ∈ Finset.range 1, sEx6w 0 c t ^ 2)
    ∧ 1 ≤ 1
    ∧ ∃ g, matchFeatures 1 1 sEx6w sEx6w 1 0 = some g
        ∧ ∀ c t, c < 1 → t < 1 → g 0 c t = sEx6w 0 c t := by
  have hnz : ∀ t, t < 1 → 0 < ∑ c ∈ Finset.range 1, sEx6w 0 c t ^ 2 := by
    intro t ht
    rw [Finset.sum_range_one]
    norm_num [sEx6w]
  refine ⟨hnz, le_refl 1, match_features_k1_self_id 1 1 sEx6w 0 (le_refl 1) hnz ?_⟩
  intro t j ht hj _ c hc
  interval_cases t
  interval_cases j
  rfl

/-- C7 (amended): with `alpha = 1` and any `k` with `1 ≤ k ≤ reference
length`, `match_features` returns exactly the original source tensor:
the gathered mean is multiplied by `1 - alpha = 0` and the source by
`alpha = 1`.  The claim's "for every k" fails because `torch.topk` raises
when `k` exceeds the reference time length (see the counterexample);
`k = 0` is excluded because the mean over zero gathered neighbors is NaN in
torch, which real arithmetic cannot express. -/
theorem match_features_alpha_one_id (C Lr : ℕ) (S R : T3) (k : ℕ)
    (hk1 : 1 ≤ k) (hk : k ≤ Lr) :
    matchFeatures C Lr S R k 1 = some S := by
  unfold matchFeatures
  rw [if_pos hk]
  congr 1
  funext n c t
  dsimp only
  rw [sub_self, mul_zero, zero_add, mul_one]

/-- C7 counterexample: with `k = 2` and a reference of time length 1,
`match_features` raises (`torch.topk` requires `k ≤` the dimension size)
instead of returning the source. -/
theorem match_features_alpha_one_k_too_large :
    matchFeatures 1 1 (fun _ _ _ => (1 : ℝ)) (fun _ _ _ => (1 : ℝ)) 2 1 = none := by
  unfold matchFeatures
  rw [if_neg (by norm_num)]

/-- C7 witness: concrete instance with `k = 1` and a reference differing
from the source. -/
theorem match_features_alpha_one_id_witness :
    (1 ≤ 1 ∧ 1 ≤ 1)
    ∧ matchFeatures 1 1 (fun _ _ _ => (1 : ℝ)) (fun _ _ _ => (2 : ℝ)) 1 1
      = some (fun _ _ _ => (1 : ℝ)) :=
  ⟨⟨le_refl 1, le_refl 1⟩,
    match_features_alpha_one_id 1 1 (fun _ _ _ => (1 : ℝ)) (fun _ _ _ => (2 : ℝ)) 1
      (le_refl 1) (le_refl 1)⟩

/-- C9 (amended): when the affine parameters are uniform across channels —
scale `γ ≥ 0` and shift `β`, as at initialization where scale is all ones
and shift all zeros — the `ChannelNorm.forward` output has, at every
(batch, time) position with `C ≥ 2` channels, channel mean exactly `β` and
channel standard deviation `γ · s / (s + ε)` where `s` is the input's
channel standard deviation: approximately `γ` up to the epsilon's bias
(stated exactly as `std_out · (s + ε) = γ · s`).  With non-uniform learned
parameters the claim fails (see the counterexample): the channel mean of
the output is a scale-weighted average, not the shift. -/
theorem channel_norm_uniform_affine_stats (C : ℕ) (γ β eps : ℝ) (x : T3) (b t : ℕ)
    (hC : 2 ≤ C) (hγ : 0 ≤ γ) (heps : 0 < eps) :
    tmean (channelNormForward ⟨C, fun _ => γ, fun _ => β, eps⟩ x) C b t = β
    ∧ tstd (channelNormForward ⟨C, fun _ => γ, fun _ => β, eps⟩ x) C b t
        * (tstd x C b t + eps) = γ * tstd x C b t := by
  have hCR : (2 : ℝ) ≤ (C : ℝ) := by exact_mod_cast hC
  have hCne : (C : ℝ) ≠ 0 := by linarith
  have hσ : 0 < tstd x C b t + eps := by
    have h := Real.sqrt_nonneg
      ((∑ c ∈ Finset.range C, (x b c t - tmean x C b t) ^ 2) / ((C : ℝ) - 1))
    unfold tstd
    linarith
  have hσne : tstd x C b t + eps ≠ 0 := ne_of_gt hσ
  have hsum0 : ∑ c ∈ Finset.range C, (x b c t - tmean x C b t) = 0 := by
    rw [Finset.sum_sub_distrib, Finset.sum_const, Finset.card_range, nsmul_eq_mul]
    unfold tmean
    field_simp
  have hmean : tmean (channelNormForward ⟨C, fun _ => γ, fun _ => β, eps⟩ x) C b t = β := by
    have hcnf : ∀ c ∈ Finset.range C,
        channelNormForward ⟨C, fun _ => γ, fun _ => β, eps⟩ x b c t
          = (x b c t - tmean x C b t) * (γ / (tstd x C b t + eps)) + β := by
      intro c _
      simp only [channelNormForward]
      ring
    unfold tmean
    rw [Finset.sum_congr rfl hcnf, Finset.sum_add_distrib, ← Finset.sum_mul, hsum0,
      Finset.sum_const, Finset.card_range, nsmul_eq_mul, zero_mul, zero_add]
    field_simp
  refine ⟨hmean, ?_⟩
  have hterm : ∀ c ∈ Finset.range C,
      (channelNormForward ⟨C, fun _ => γ, fun _ => β, eps⟩ x b c t
          - tmean (channelNormForward ⟨C, fun _ => γ, fun _ => β, eps⟩ x) C b t) ^ 2
        = (γ / (tstd x C b t + eps)) ^ 2 * (x b c t - tmean x C b t) ^ 2 := by
    intro c _
    rw [hmean]
    simp only [channelNormForward]
    ring
  have hstd' : Real.sqrt ((∑ c ∈ Finset.range C,
        (channelNormForward ⟨C, fun _ => γ, fun _ => β, eps⟩ x b c t
          - tmean (channelNormForward ⟨C, fun _ => γ, fun _ => β, eps⟩ x) C b t) ^ 2)
        / ((C : ℝ) - 1))
      = γ / (tstd x C b t + eps) * tstd x C b t := by
    rw [Finset.sum_congr rfl hterm, ← Finset.mul_sum, mul_div_assoc,
      Real.sqrt_mul (sq_nonneg _), Real.sqrt_sq (div_nonneg hγ (le_of_lt hσ))]
    rfl
  rw [show tstd (channelNormForward ⟨C, fun _ => γ, fun _ => β, eps⟩ x) C b t
      = γ / (tstd x C b t + eps) * tstd x C b t from hstd']
  field_simp

/-- C9 counterexample: with the non-uniform learned scale `(1, -1)` (and
shift 0, epsilon `1e-4`), the input whose two channels are `(0, 1)` yields
an output whose channel mean is `-1/(2·(√(1/2) + 1e-4)) ≤ -1/2` — far from
the shift parameter 0, and not attributable to the epsilon (the
epsilon-free value is `-1/√2`).  So "channel mean ≈ shift" fails for
general per-channel parameters. -/
theorem channel_norm_mean_ne_shift_ce :
    tmean (channelNormForward
        ⟨2, fun c => if c = 0 then (1 : ℝ) else -1, fun _ => 0, 1 / 10000⟩
        (fun _ c _ => (c : ℝ))) 2 0 0 ≤ -(1 / 2) := by
  have hm : tmean (fun _ c _ => (c : ℝ)) 2 0 0 = 1 / 2 := by
    unfold tmean
    rw [Finset.sum_range_succ, Finset.sum_range_one]
    norm_num
  have hs : tstd (fun _ c _ => (c : ℝ)) 2 0 0 = Real.sqrt (1 / 2) := by
    unfold tstd
    rw [hm, Finset.sum_range_succ, Finset.sum_range_one]
    norm_num
  have hσpos : 0 < Real.sqrt (1 / 2) + 1 / 10000 := by
    have := Real.sqrt_nonneg (1 / 2 : ℝ)
    linarith
  have hσne : Real.sqrt (1 / 2) + 1 / 10000 ≠ 0 := ne_of_gt hσpos
  have h0 : channelNormForward
      ⟨2, fun c => if c = 0 then (1 : ℝ) else -1, fun _ => 0, 1 / 10000⟩
      (fun _ c _ => (c : ℝ)) 0 0 0
      = -(1 / (2 * (Real.sqrt (1 / 2) + 1 / 10000))) := by
    simp only [channelNormForward]
    rw [hm, hs]
    norm_num
    ring
  have h1 : channelNormForward
      ⟨2, fun c => if c = 0 then (1 : ℝ) else -1, fun _ => 0, 1 / 10000⟩
      (fun _ c _ => (c : ℝ)) 0 1 0
      = -(1 / (2 * (Real.sqrt (1 / 2) + 1 / 10000))) := by
    simp only [channelNormForward]
    rw [hm, hs]
    norm_num
    ring
  have hout : tmean (channelNormForward
      ⟨2, fun c => if c = 0 then (1 : ℝ) else -1, fun _ => 0, 1 / 10000⟩
      (fun _ c _ => (c : ℝ))) 2 0 0
      = -(1 / (2 * (Real.sqrt (1 / 2) + 1 / 10000))) := by
    unfold tmean
    rw [Finset.sum_range_succ, Finset.sum_range_one, h0, h1]
    norm_num
  rw [hout]
  have h34 : Real.sqrt (1 / 2) < 3 / 4 := by
    rw [show (3 / 4 : ℝ) = Real.sqrt ((3 / 4) ^ 2) from (Real.sqrt_sq (by norm_num)).symm]
    apply Real.sqrt_lt_sqrt (by norm_num)
    norm_num
  have h2σ : 2 * (Real.sqrt (1 / 2) + 1 / 10000) ≤ 2 := by linarith
  have hrec := one_div_le_one_div_of_le (by linarith : 0 < 2 * (Real.sqrt (1 / 2) + 1 / 10000)) h2σ
  linarith

/-- C9 witness: the amended statement at the uniform parameters γ = 1,
β = 0, ε = 1/2 on the two-channel input (0, 1). -/
theorem channel_norm_uniform_affine_stats_witness :
    (2 ≤ 2 ∧ (0 : ℝ) ≤ 1 ∧ (0 : ℝ) < 1 / 2)
    ∧ (tmean (channelNormForward ⟨2, fun _ => (1 : ℝ), fun _ => (0 : ℝ), 1 / 2⟩
          (fun _ c _ => (c : ℝ))) 2 0 0 = 0
        ∧ tstd (channelNormForward ⟨2, fun _ => (1 : ℝ), fun _ => (0 : ℝ), 1 / 2⟩
            (fun _ c _ => (c : ℝ))) 2 0 0
            * (tstd (fun _ c _ => (c : ℝ)) 2 0 0 + 1 / 2)
          = 1 * tstd (fun _ c _ => (c : ℝ)) 2 0 0) :=
  ⟨⟨le_refl 2, by norm_num, by norm_num⟩,
    channel_norm_uniform_affine_stats 2 1 0 (1 / 2) (fun _ c _ => (c : ℝ)) 0 0
      (le_refl 2) (by norm_num) (by norm_num)⟩
